import Mathlib

/-!
# Verification of `dist_mat.py`

A shallow embedding of the distance-matrix batch program `src/dist_mat.py`
(job generation, the quota-governed scheduler loop `get_dist_mat`, and the
CSV exporter `export_result`), together with proofs of the specified
properties.

Modelling conventions:
* Python `dict`s (including `defaultdict`) are modelled as insertion-ordered
  association lists (`Dict K V`), with in-place update on an existing key and
  append on a fresh key, matching CPython semantics.
* Wall-clock time is modelled as `ℚ`; the value returned by the `k`-th call
  of `time()` inside the scheduler loop is `tl k` for an arbitrary timeline
  `tl : ℕ → ℚ`.  `sleep` has no effect on program state other than being
  recorded as an observable event.
* The HTTP distance lookup in `query_dist` is modelled by an oracle
  `String → String → V` from (origin string, destination string) to an
  opaque distance value.
* Fallible Python code (a `NameError` on the undefined `wait_time`, a
  `KeyError` on a missing dictionary key) is modelled with `Except PyErr` /
  `Option`.
-/

set_option autoImplicit false

namespace DistMat

/-- Python runtime errors that the embedded code can raise. -/
inductive PyErr where
  /-- `NameError`: an undefined identifier was evaluated. -/
  | nameError : PyErr
  /-- `KeyError`: a plain `dict` was indexed with a missing key. -/
  | keyError : PyErr
  deriving Repr, DecidableEq

/-- An insertion-ordered association list, the model of a Python `dict`:
the list order is key-insertion order. -/
abbrev Dict (K V : Type) : Type := List (K × V)

variable {K V : Type} [DecidableEq K]

/-- The empty `dict`. -/
def Dict.empty : Dict K V := []

/-- `d[k] = v`: update the value in place when `k` is already a key,
append the pair otherwise (CPython `dict` assignment). -/
def dinsert (k : K) (v : V) : Dict K V → Dict K V
  | [] => [(k, v)]
  | (k', v') :: rest =>
      if k' = k then (k', v) :: rest else (k', v') :: dinsert k v rest

/-- `d.get(k)` / `d[k]` lookup: the value at key `k`, if present. -/
def dget? (k : K) : Dict K V → Option V
  | [] => none
  | (k', v') :: rest => if k' = k then some v' else dget? k rest

/-- The keys of a `dict`, in insertion order. -/
def dkeys (d : Dict K V) : List K := d.map Prod.fst

/-- An address book: `{group_no: {address_id: address}}` as built by
`import_addr` (a `defaultdict(dict)`). -/
abbrev AddrBook : Type := Dict ℕ (Dict ℕ String)

/-- A query job `(group_no, ori_id, des_id)`. -/
abbrev Job : Type := ℕ × ℕ × ℕ

/-- `itertools.combinations(l, 2)` on the sequence `l`: all pairs
`(l[i], l[j])` with `i < j`, in lexicographic position order. -/
def combos2 {α : Type} : List α → List (α × α)
  | [] => []
  | x :: xs => xs.map (fun y => (x, y)) ++ combos2 xs

/-- `create_jobs`: for each group (in dict order) emit one job per
2-combination of its address ids (in dict order). -/
def create_jobs (addr_book : AddrBook) : List Job :=
  (addr_book.map (fun ga => (combos2 (dkeys ga.2)).map (fun p => (ga.1, p.1, p.2)))).flatten

/-- All address ids of the book, groups in dict order. -/
def allIds (addr_book : AddrBook) : List ℕ :=
  (addr_book.map (fun ga => dkeys ga.2)).flatten

/-- The unordered id pair `{ori_id, des_id}` of a job. -/
def jobPair (j : Job) : Sym2 ℕ := Sym2.mk (j.2.1, j.2.2)

/-- `query_dist`: resolve both ids to address strings through the book and
ask the oracle.  `addr_book[grp]` on the `defaultdict` silently yields `{}`
for a missing group; the inner plain-`dict` lookups raise `KeyError`
(modelled as `none`) when an id is missing. -/
def query_dist (addr_book : AddrBook) (oracle : String → String → V)
    (grp ori_id des_id : ℕ) : Option V :=
  match dget? ori_id ((dget? grp addr_book).getD Dict.empty),
        dget? des_id ((dget? grp addr_book).getD Dict.empty) with
  | some ori, some des => some (oracle ori des)
  | _, _ => none

/-- `max_jobs_day`: maximum number of jobs per day. -/
def max_jobs_day : ℕ := 2500

/-- `time_jobs`: delay time between each job, 0.002 sec. -/
def time_jobs : ℚ := 2 / 1000

/-- The window length `3600 * 24` used literally in the day-quota test. -/
def dayLength : ℚ := 3600 * 24

/-- The mutable locals of the `get_dist_mat` loop other than the cursor:
the accumulating matrix, `last_time`, and `num_jobs_day`. -/
structure SchedState (V : Type) where
  dist_mat : Dict ℕ (Dict ℕ V)
  last_time : ℚ
  num_jobs_day : ℕ
  deriving DecidableEq

/-- `dist_mat[a][b] = v` on the `defaultdict(dict)`: indexing the outer
dict materialises an empty inner dict for a fresh key `a`. -/
def matPut (m : Dict ℕ (Dict ℕ V)) (a b : ℕ) (v : V) : Dict ℕ (Dict ℕ V) :=
  dinsert a (dinsert b v ((dget? a m).getD Dict.empty)) m

/-- The two symmetric writes `dist_mat[ori][des] = dist;
dist_mat[des][ori] = dist` of one job. -/
def matPut2 (m : Dict ℕ (Dict ℕ V)) (a b : ℕ) (v : V) : Dict ℕ (Dict ℕ V) :=
  matPut (matPut m a b v) b a v

/-- `dist_mat[a][b]` read without materialisation. -/
def matGet (m : Dict ℕ (Dict ℕ V)) (a b : ℕ) : Option V :=
  dget? b ((dget? a m).getD Dict.empty)

/-- What one iteration of the `while` loop makes observable: the value of
`time()` captured at its start, the `sleep` duration of the pacing branch
(if it slept), and the job it dispatched. -/
structure Event (V : Type) where
  t : ℚ
  slept : Option ℚ
  job : Job

/-- One iteration of the `get_dist_mat` `while` body at current time `t`,
dispatching job `j`.  Faithful to the source:
* day-quota branch: with the daily quota exhausted and the day not yet
  over, the code executes `sleep(wait_time)` where `wait_time` is an
  undefined name — a `NameError`;
* day rollover: reset `num_jobs_day` and set `last_time = t - 0.002`;
* pacing branch: when `t - last_time < time_jobs`, `sleep(time_jobs)`
  (the full interval; `t` is not re-read afterwards);
* dispatch: query, set `last_time = t`, write the two symmetric matrix
  cells, bump `num_jobs_day`. -/
def sched_step (addr_book : AddrBook) (oracle : String → String → V)
    (j : Job) (s : SchedState V) (t : ℚ) :
    Except PyErr (SchedState V × Option ℚ) :=
  match
    (if max_jobs_day ≤ s.num_jobs_day then
      if t - s.last_time < dayLength then Except.error PyErr.nameError
      else Except.ok { s with num_jobs_day := 0, last_time := t - 2 / 1000 }
    else Except.ok s : Except PyErr (SchedState V)) with
  | Except.error e => Except.error e
  | Except.ok s1 =>
    let slept : Option ℚ :=
      if t - s1.last_time < time_jobs then some time_jobs else none
    match query_dist addr_book oracle j.1 j.2.1 j.2.2 with
    | none => Except.error PyErr.keyError
    | some dist =>
        Except.ok
          ({ dist_mat := matPut2 s1.dist_mat j.2.1 j.2.2 dist,
             last_time := t,
             num_jobs_day := s1.num_jobs_day + 1 }, slept)

/-- The `while i < num_jobs` loop.  The cursor `i` is modelled by the
suffix `job_list.drop i` of remaining jobs; `k` counts calls to `time()`
(the `k`-th returns `tl k`).  Each non-raising iteration dispatches exactly
one job (the quota-wait `continue` path always raises), so the loop recurses
structurally on the remaining jobs and returns the final state together
with the trace of iteration events in dispatch order. -/
def sched_loop (addr_book : AddrBook) (oracle : String → String → V)
    (tl : ℕ → ℚ) : List Job → ℕ → SchedState V →
    Except PyErr (SchedState V × List (Event V))
  | [], _, s => Except.ok (s, [])
  | j :: rest, k, s =>
    match sched_step addr_book oracle j s (tl k) with
    | Except.error e => Except.error e
    | Except.ok (s', slept) =>
      match sched_loop addr_book oracle tl rest (k + 1) s' with
      | Except.error e => Except.error e
      | Except.ok (sf, tr) => Except.ok (sf, ⟨tl k, slept, j⟩ :: tr)

/-- The scheduler's initial state: empty matrix, `last_time = 0`,
`num_jobs_day = 0`. -/
def initState (V : Type) : SchedState V := ⟨Dict.empty, 0, 0⟩

/-- `get_dist_mat`: run the loop over the whole job list from the initial
state and return the accumulated distance matrix. -/
def get_dist_mat (addr_book : AddrBook) (oracle : String → String → V)
    (job_list : List Job) (tl : ℕ → ℚ) :
    Except PyErr (Dict ℕ (Dict ℕ V)) :=
  match sched_loop addr_book oracle tl job_list 0 (initState V) with
  | Except.error e => Except.error e
  | Except.ok (sf, _) => Except.ok sf.dist_mat

/-- A CSV cell as written by `export_result`: an address name, a distance
value, or the literal `0` default of `dist_mat[ori_id].get(des_id, 0)`. -/
inductive Cell (V : Type) where
  | str : String → Cell V
  | val : V → Cell V
  | zero : Cell V
  deriving Repr, DecidableEq

/-- The flat `addr_name` map `{id: address}` built by `export_result` from
the book's groups in dict order. -/
def addrName (addr_book : AddrBook) : Dict ℕ String :=
  addr_book.foldl (fun acc ga => ga.2.foldl (fun a p => dinsert p.1 p.2 a) acc) Dict.empty

/-- Python's `sorted` on a key list: the `≤`-sorted permutation. -/
def sortIds (l : List ℕ) : List ℕ := l.insertionSort (· ≤ ·)

/-- The Scenario A address book: group 1 holding ids 0, 1, 2 with names
`A`, `B`, `C` (ids in import order). -/
def bookABC : AddrBook := [(1, [(0, "A"), (1, "B"), (2, "C")])]

/-- An address book whose single group holds a single address, so that no
job is ever generated for it. -/
def bookSolo : AddrBook := [(1, [(0, "A")])]

/-- A timeline spacing the scheduler's `time()` readings 1000 s apart, far
wider than `time_jobs`, so a run over it never sleeps. -/
def slowTl : ℕ → ℚ := fun k => (k + 1) * 1000

/-- `export_result`: the rows written to the CSV file.  `addr_ids` is
`sorted(dist_mat.keys())`; the header is `'sample'` followed by the names
of those ids, then one row per id with its name and one cell per column id
(`dist_mat[ori_id].get(des_id, 0)`).  `addr_name[id]` raises `KeyError`
(`none`) when a matrix key has no name in the book. -/
def export_result (addr_book : AddrBook) (dist_mat : Dict ℕ (Dict ℕ V)) :
    Option (List (List (Cell V))) :=
  let addr_name := addrName addr_book
  let addr_ids := sortIds (dkeys dist_mat)
  match addr_ids.mapM (fun i => dget? i addr_name) with
  | none => none
  | some names =>
      some ((Cell.str "sample" :: names.map Cell.str) ::
        (addr_ids.map (fun ori_id =>
          Cell.str ((dget? ori_id addr_name).getD "") ::
            addr_ids.map (fun des_id =>
              match matGet dist_mat ori_id des_id with
              | some v => Cell.val v
              | none => Cell.zero))))

/-! ## Dictionary lemmas -/

theorem dget?_dinsert (k k' : K) (v : V) (m : Dict K V) :
    dget? k' (dinsert k v m) = if k' = k then some v else dget? k' m := by
  induction m with
  | nil =>
    by_cases h : k' = k
    · subst h; simp [dinsert, dget?]
    · have h2 : ¬ k = k' := fun hh => h hh.symm
      simp [dinsert, dget?, h, h2]
  | cons p rest ih =>
    obtain ⟨a, b⟩ := p
    by_cases hak : a = k
    · by_cases hak' : a = k'
      · have hk : k' = k := hak'.symm.trans hak
        rw [if_pos hk]
        simp only [dinsert, if_pos hak, dget?, if_pos hak']
      · have hk : ¬ k' = k := fun h => hak' (hak.trans h.symm)
        rw [if_neg hk]
        simp only [dinsert, if_pos hak, dget?, if_neg hak']
    · by_cases hak' : a = k'
      · have hk : ¬ k' = k := fun h => hak (hak'.trans h)
        rw [if_neg hk]
        simp only [dinsert, if_neg hak, dget?, if_pos hak']
      · rw [show dinsert k v ((a, b) :: rest) = (a, b) :: dinsert k v rest from by
          simp [dinsert, hak]]
        simp only [dget?, if_neg hak', ih]

theorem mem_dkeys_iff_isSome (k : K) (m : Dict K V) :
    k ∈ dkeys m ↔ (dget? k m).isSome := by
  induction m with
  | nil => simp [dkeys, dget?]
  | cons p rest ih =>
    obtain ⟨a, b⟩ := p
    have hk : dkeys ((a, b) :: rest) = a :: dkeys rest := rfl
    by_cases hak : a = k
    · subst hak
      simp [hk, dget?]
    · have h2 : ¬ k = a := fun hh => hak hh.symm
      rw [hk, List.mem_cons]
      simp only [dget?, if_neg hak]
      simp [h2, ih]

theorem mem_dkeys_dinsert (k k' : K) (v : V) (m : Dict K V) :
    k' ∈ dkeys (dinsert k v m) ↔ k' = k ∨ k' ∈ dkeys m := by
  rw [mem_dkeys_iff_isSome, dget?_dinsert, mem_dkeys_iff_isSome]
  by_cases h : k' = k <;> simp [h]

/-! ## Distance-matrix lemmas -/

variable {W : Type}

theorem matGet_matPut (m : Dict ℕ (Dict ℕ W)) (a b o d : ℕ) (v : W) :
    matGet (matPut m a b v) o d =
      if o = a ∧ d = b then some v else matGet m o d := by
  unfold matGet matPut
  rw [dget?_dinsert]
  by_cases hoa : o = a
  · rw [if_pos hoa, Option.getD_some, dget?_dinsert]
    by_cases hdb : d = b
    · rw [if_pos hdb, if_pos ⟨hoa, hdb⟩]
    · rw [if_neg hdb, if_neg (fun h => hdb h.2), hoa]
  · rw [if_neg hoa, if_neg (fun h => hoa h.1)]

theorem matGet_matPut2 (m : Dict ℕ (Dict ℕ W)) (a b o d : ℕ) (v : W) :
    matGet (matPut2 m a b v) o d =
      if (o = a ∧ d = b) ∨ (o = b ∧ d = a) then some v else matGet m o d := by
  unfold matPut2
  rw [matGet_matPut, matGet_matPut]
  by_cases h1 : o = b ∧ d = a <;> by_cases h2 : o = a ∧ d = b <;>
    simp [h1, h2]

theorem mem_dkeys_matPut (m : Dict ℕ (Dict ℕ W)) (a b o : ℕ) (v : W) :
    o ∈ dkeys (matPut m a b v) ↔ o = a ∨ o ∈ dkeys m := by
  unfold matPut
  rw [mem_dkeys_dinsert]

theorem mem_dkeys_matPut2 (m : Dict ℕ (Dict ℕ W)) (a b o : ℕ) (v : W) :
    o ∈ dkeys (matPut2 m a b v) ↔ o = a ∨ o = b ∨ o ∈ dkeys m := by
  unfold matPut2
  rw [mem_dkeys_matPut, mem_dkeys_matPut]
  tauto

theorem matGet_empty (o d : ℕ) : matGet (Dict.empty : Dict ℕ (Dict ℕ W)) o d = none := rfl

/-- The keys of the inner dict at an outer key `o` (empty when `o` is
absent), i.e. the column ids recorded for row `o`. -/
def innerKeys (m : Dict ℕ (Dict ℕ W)) (o : ℕ) : List ℕ :=
  dkeys ((dget? o m).getD Dict.empty)

theorem mem_innerKeys_iff (m : Dict ℕ (Dict ℕ W)) (o d : ℕ) :
    d ∈ innerKeys m o ↔ (matGet m o d).isSome := by
  unfold innerKeys matGet
  rw [mem_dkeys_iff_isSome]

/-! ## Job-generator lemmas -/

theorem combos2_length {α : Type} (l : List α) :
    (combos2 l).length = Nat.choose l.length 2 := by
  induction l with
  | nil => rfl
  | cons x xs ih =>
    simp only [combos2, List.length_append, List.length_map, ih, List.length_cons]
    rw [Nat.choose_succ_succ, Nat.choose_one_right, Nat.add_comm]

theorem mem_combos2 {α : Type} {p : α × α} {l : List α} (h : p ∈ combos2 l) :
    p.1 ∈ l ∧ p.2 ∈ l := by
  induction l with
  | nil => simp [combos2] at h
  | cons x xs ih =>
    simp only [combos2, List.mem_append, List.mem_map] at h
    rcases h with ⟨y, hy, hp⟩ | h
    · subst hp
      exact ⟨List.mem_cons_self x xs, List.mem_cons_of_mem x hy⟩
    · obtain ⟨h1, h2⟩ := ih h
      exact ⟨List.mem_cons_of_mem x h1, List.mem_cons_of_mem x h2⟩

theorem combos2_ne {α : Type} {p : α × α} {l : List α}
    (hl : l.Nodup) (h : p ∈ combos2 l) : p.1 ≠ p.2 := by
  induction l with
  | nil => simp [combos2] at h
  | cons x xs ih =>
    simp only [combos2, List.mem_append, List.mem_map] at h
    rcases h with ⟨y, hy, hp⟩ | h
    · subst hp
      intro hxy
      exact (List.nodup_cons.mp hl).1 (by rw [show x = y from hxy]; exact hy)
    · exact ih (List.nodup_cons.mp hl).2 h

theorem combos2_sym2_nodup {α : Type} [DecidableEq α] {l : List α} (hl : l.Nodup) :
    ((combos2 l).map (fun p => Sym2.mk p)).Nodup := by
  induction l with
  | nil => simp [combos2]
  | cons x xs ih =>
    obtain ⟨hx, hxs⟩ := List.nodup_cons.mp hl
    simp only [combos2, List.map_append, List.map_map]
    rw [List.nodup_append]
    refine ⟨?_, ih hxs, ?_⟩
    · rw [List.nodup_map_iff_inj_on hxs]
      intro y hy z hz hyz
      rcases Sym2.eq_iff.mp hyz with ⟨_, h⟩ | ⟨hxz, _⟩
      · exact h
      · exact absurd (hxz ▸ hz) hx
    · intro a ha hb
      simp only [List.mem_map, Function.comp] at ha hb
      obtain ⟨y, hy, ha'⟩ := ha
      obtain ⟨q, hq, hb'⟩ := hb
      subst ha'
      have hab : Sym2.mk (x, y) = Sym2.mk q := hb'.symm
      rcases Sym2.eq_iff.mp (show Sym2.mk (x, y) = Sym2.mk (q.1, q.2) from hab) with
        ⟨hxq, _⟩ | ⟨hxq, _⟩
      · exact hx (hxq ▸ (mem_combos2 hq).1)
      · exact hx (hxq ▸ (mem_combos2 hq).2)

theorem mem_combos2_of_mem {α : Type} {l : List α} {x y : α}
    (hx : x ∈ l) (hy : y ∈ l) (hxy : x ≠ y) :
    (x, y) ∈ combos2 l ∨ (y, x) ∈ combos2 l := by
  induction l with
  | nil => simp at hx
  | cons z zs ih =>
    rcases List.mem_cons.mp hx with hxz | hx'
    · subst hxz
      have hy' : y ∈ zs := by
        rcases List.mem_cons.mp hy with hyz | h
        · exact absurd hyz.symm hxy
        · exact h
      left
      simp only [combos2, List.mem_append, List.mem_map]
      exact Or.inl ⟨y, hy', rfl⟩
    · rcases List.mem_cons.mp hy with hyz | hy'
      · subst hyz
        right
        simp only [combos2, List.mem_append, List.mem_map]
        exact Or.inl ⟨x, hx', rfl⟩
      · rcases ih hx' hy' with h | h
        · left
          simp only [combos2, List.mem_append]
          exact Or.inr h
        · right
          simp only [combos2, List.mem_append]
          exact Or.inr h

theorem mem_create_jobs {book : AddrBook} {j : Job} :
    j ∈ create_jobs book ↔
      ∃ ga ∈ book, ∃ p ∈ combos2 (dkeys ga.2), j = (ga.1, p.1, p.2) := by
  unfold create_jobs
  rw [List.mem_flatten]
  constructor
  · rintro ⟨l, hl, hj⟩
    rw [List.mem_map] at hl
    obtain ⟨ga, hga, rfl⟩ := hl
    rw [List.mem_map] at hj
    obtain ⟨p, hp, rfl⟩ := hj
    exact ⟨ga, hga, p, hp, rfl⟩
  · rintro ⟨ga, hga, p, hp, rfl⟩
    refine ⟨(combos2 (dkeys ga.2)).map (fun p => (ga.1, p.1, p.2)), ?_, ?_⟩
    · exact List.mem_map_of_mem _ hga
    · exact List.mem_map_of_mem _ hp

theorem create_jobs_length (book : AddrBook) :
    (create_jobs book).length =
      (book.map (fun ga => Nat.choose (dkeys ga.2).length 2)).sum := by
  unfold create_jobs
  rw [List.length_flatten, List.map_map]
  congr 1
  refine List.map_congr_left (fun ga _ => ?_)
  simp [combos2_length]

/-- The per-group blocks of jobs have pairwise-disjoint unordered id
pairs as soon as the groups' id sets are disjoint. -/
theorem disjoint_jobPair {g1 g2 : ℕ} {l1 l2 : List ℕ} (hd : l1.Disjoint l2) :
    (((combos2 l1).map (fun p => ((g1, p.1, p.2) : Job))).map jobPair).Disjoint
      (((combos2 l2).map (fun p => ((g2, p.1, p.2) : Job))).map jobPair) := by
  intro a ha hb
  rw [List.map_map, List.mem_map] at ha hb
  obtain ⟨p, hp, hpa⟩ := ha
  obtain ⟨q, hq, hqa⟩ := hb
  have ha2 : Sym2.mk (p.1, p.2) = Sym2.mk (q.1, q.2) :=
    (show Sym2.mk (p.1, p.2) = a from hpa).trans
      (show a = Sym2.mk (q.1, q.2) from hqa.symm)
  rcases Sym2.eq_iff.mp ha2 with ⟨h1, _⟩ | ⟨h1, _⟩
  · exact hd (mem_combos2 hp).1 (by rw [h1]; exact (mem_combos2 hq).1)
  · exact hd (mem_combos2 hp).1 (by rw [h1]; exact (mem_combos2 hq).2)

/-! ## Scheduler lemmas -/

theorem sched_step_ok_inv {book : AddrBook} {oracle : String → String → V}
    {j : Job} {s s' : SchedState V} {t : ℚ} {slept : Option ℚ}
    (h : sched_step book oracle j s t = Except.ok (s', slept)) :
    ∃ n1 v, query_dist book oracle j.1 j.2.1 j.2.2 = some v ∧
      s'.dist_mat = matPut2 s.dist_mat j.2.1 j.2.2 v ∧
      s'.last_time = t ∧ s'.num_jobs_day = n1 + 1 ∧
      (n1 = s.num_jobs_day ∨ n1 = 0) := by
  unfold sched_step at h
  by_cases h1 : max_jobs_day ≤ s.num_jobs_day
  · by_cases h2 : t - s.last_time < dayLength
    · rw [if_pos h1, if_pos h2] at h
      exact absurd h (by simp)
    · rw [if_pos h1, if_neg h2] at h
      cases hq : query_dist book oracle j.1 j.2.1 j.2.2 with
      | none => rw [hq] at h; exact absurd h (by simp)
      | some v =>
        rw [hq] at h
        have h3 := Except.ok.inj h
        rw [Prod.mk.injEq] at h3
        obtain ⟨h4, _⟩ := h3
        subst h4
        exact ⟨0, v, rfl, rfl, rfl, rfl, Or.inr rfl⟩
  · rw [if_neg h1] at h
    cases hq : query_dist book oracle j.1 j.2.1 j.2.2 with
    | none => rw [hq] at h; exact absurd h (by simp)
    | some v =>
      rw [hq] at h
      have h3 := Except.ok.inj h
      rw [Prod.mk.injEq] at h3
      obtain ⟨h4, _⟩ := h3
      subst h4
      exact ⟨s.num_jobs_day, v, rfl, rfl, rfl, rfl, Or.inl rfl⟩

theorem sched_loop_cons_ok {book : AddrBook} {oracle : String → String → V}
    {tl : ℕ → ℚ} {j : Job} {rest : List Job} {k : ℕ} {s : SchedState V}
    {out : SchedState V × List (Event V)}
    (h : sched_loop book oracle tl (j :: rest) k s = Except.ok out) :
    ∃ s' slept sf tr, sched_step book oracle j s (tl k) = Except.ok (s', slept) ∧
      sched_loop book oracle tl rest (k + 1) s' = Except.ok (sf, tr) ∧
      out = (sf, ⟨tl k, slept, j⟩ :: tr) := by
  unfold sched_loop at h
  cases hstep : sched_step book oracle j s (tl k) with
  | error e => rw [hstep] at h; exact absurd h (by simp)
  | ok p =>
    obtain ⟨s', slept⟩ := p
    rw [hstep] at h
    dsimp only at h
    cases hloop : sched_loop book oracle tl rest (k + 1) s' with
    | error e => rw [hloop] at h; exact absurd h (by simp)
    | ok q =>
      obtain ⟨sf, tr⟩ := q
      rw [hloop] at h
      exact ⟨s', slept, sf, tr, rfl, hloop, (Except.ok.inj h).symm⟩

/-- Composition: a successful step followed by a successful run of the
rest is a successful run of the whole list. -/
theorem sched_loop_cons_of {book : AddrBook} {oracle : String → String → V}
    {tl : ℕ → ℚ} {j : Job} {rest : List Job} {k : ℕ} {s s' sf : SchedState V}
    {slept : Option ℚ} {tr : List (Event V)}
    (hstep : sched_step book oracle j s (tl k) = Except.ok (s', slept))
    (hloop : sched_loop book oracle tl rest (k + 1) s' = Except.ok (sf, tr)) :
    sched_loop book oracle tl (j :: rest) k s =
      Except.ok (sf, ⟨tl k, slept, j⟩ :: tr) := by
  unfold sched_loop
  rw [hstep]
  dsimp only
  rw [hloop]

/-- A successful run of the loop returns the start state and an empty
trace on an exhausted job list. -/
theorem sched_loop_nil {book : AddrBook} {oracle : String → String → V}
    {tl : ℕ → ℚ} {k : ℕ} {s : SchedState V} :
    sched_loop book oracle tl [] k s = Except.ok (s, []) := rfl

/-- Which cells a successful run populates: exactly the cells already
present plus both orientations of every processed job's id pair. -/
theorem sched_loop_matGet_isSome {book : AddrBook} {oracle : String → String → V}
    {tl : ℕ → ℚ} {jobs : List Job} {k : ℕ} {s : SchedState V}
    {out : SchedState V × List (Event V)}
    (h : sched_loop book oracle tl jobs k s = Except.ok out) (o d : ℕ) :
    (matGet out.1.dist_mat o d).isSome ↔
      ((matGet s.dist_mat o d).isSome ∨
        ∃ j ∈ jobs, (o = j.2.1 ∧ d = j.2.2) ∨ (o = j.2.2 ∧ d = j.2.1)) := by
  induction jobs generalizing k s out with
  | nil =>
    have h2 := Except.ok.inj h
    subst h2
    simp
  | cons j rest ih =>
    obtain ⟨s', slept, sf, tr, hstep, hloop, rfl⟩ := sched_loop_cons_ok h
    obtain ⟨n1, v, hq, hmat, _, _, _⟩ := sched_step_ok_inv hstep
    have h2 := ih hloop
    dsimp only at h2 ⊢
    rw [h2, hmat, matGet_matPut2]
    by_cases hc : (o = j.2.1 ∧ d = j.2.2) ∨ (o = j.2.2 ∧ d = j.2.1)
    · simp only [if_pos hc, List.mem_cons]
      constructor
      · intro _
        exact Or.inr ⟨j, Or.inl rfl, hc⟩
      · intro _
        exact Or.inl rfl
    · simp only [if_neg hc, List.mem_cons]
      constructor
      · rintro (hic | ⟨j', hj', hc'⟩)
        · exact Or.inl hic
        · exact Or.inr ⟨j', Or.inr hj', hc'⟩
      · rintro (hic | ⟨j', rfl | hj', hc'⟩)
        · exact Or.inl hic
        · exact absurd hc' hc
        · exact Or.inr ⟨j', hj', hc'⟩

/-- Which outer keys a successful run creates: exactly the keys already
present plus every id occurring in a processed job. -/
theorem sched_loop_mem_dkeys {book : AddrBook} {oracle : String → String → V}
    {tl : ℕ → ℚ} {jobs : List Job} {k : ℕ} {s : SchedState V}
    {out : SchedState V × List (Event V)}
    (h : sched_loop book oracle tl jobs k s = Except.ok out) (o : ℕ) :
    o ∈ dkeys out.1.dist_mat ↔
      (o ∈ dkeys s.dist_mat ∨ ∃ j ∈ jobs, o = j.2.1 ∨ o = j.2.2) := by
  induction jobs generalizing k s out with
  | nil =>
    have h2 := Except.ok.inj h
    subst h2
    simp
  | cons j rest ih =>
    obtain ⟨s', slept, sf, tr, hstep, hloop, rfl⟩ := sched_loop_cons_ok h
    obtain ⟨n1, v, hq, hmat, _, _, _⟩ := sched_step_ok_inv hstep
    have h2 := ih hloop
    dsimp only at h2 ⊢
    rw [h2, hmat, mem_dkeys_matPut2]
    simp only [List.mem_cons]
    constructor
    · rintro ((ho | ho | hm) | ⟨j', hj', ho⟩)
      · exact Or.inr ⟨j, Or.inl rfl, Or.inl ho⟩
      · exact Or.inr ⟨j, Or.inl rfl, Or.inr ho⟩
      · exact Or.inl hm
      · exact Or.inr ⟨j', Or.inr hj', ho⟩
    · rintro (hm | ⟨j', rfl | hj', ho⟩)
      · exact Or.inl (Or.inr (Or.inr hm))
      · rcases ho with ho | ho
        · exact Or.inl (Or.inl ho)
        · exact Or.inl (Or.inr (Or.inl ho))
      · exact Or.inr ⟨j', hj', ho⟩

/-- When the oracle is the constant `v`, a successful run writes no value
other than `v` into the matrix. -/
theorem sched_loop_const_val {book : AddrBook} {v : V}
    {tl : ℕ → ℚ} {jobs : List Job} {k : ℕ} {s : SchedState V}
    {out : SchedState V × List (Event V)}
    (h : sched_loop book (fun _ _ => v) tl jobs k s = Except.ok out)
    (hs : ∀ o d w, matGet s.dist_mat o d = some w → w = v) :
    ∀ o d w, matGet out.1.dist_mat o d = some w → w = v := by
  induction jobs generalizing k s out with
  | nil =>
    have h2 := Except.ok.inj h
    subst h2
    exact hs
  | cons j rest ih =>
    obtain ⟨s', slept, sf, tr, hstep, hloop, rfl⟩ := sched_loop_cons_ok h
    obtain ⟨n1, w0, hq, hmat, _, _, _⟩ := sched_step_ok_inv hstep
    have hw0 : w0 = v := by
      unfold query_dist at hq
      rcases h1 : dget? j.2.1 ((dget? j.1 book).getD Dict.empty) with _ | ori
      · rw [h1] at hq
        exact Option.noConfusion hq
      · rcases h2 : dget? j.2.2 ((dget? j.1 book).getD Dict.empty) with _ | des
        · rw [h1, h2] at hq
          exact Option.noConfusion hq
        · rw [h1, h2] at hq
          exact (Option.some.inj hq).symm
    dsimp only
    refine ih hloop ?_
    intro o d w hw
    rw [hmat, matGet_matPut2] at hw
    by_cases hc : (o = j.2.1 ∧ d = j.2.2) ∨ (o = j.2.2 ∧ d = j.2.1)
    · rw [if_pos hc] at hw
      rw [← Option.some.inj hw, hw0]
    · rw [if_neg hc] at hw
      exact hs o d w hw

/-- A successful run preserves symmetry of the matrix. -/
theorem sched_loop_symm {book : AddrBook} {oracle : String → String → V}
    {tl : ℕ → ℚ} {jobs : List Job} {k : ℕ} {s : SchedState V}
    {out : SchedState V × List (Event V)}
    (h : sched_loop book oracle tl jobs k s = Except.ok out)
    (hs : ∀ o d, matGet s.dist_mat o d = matGet s.dist_mat d o) :
    ∀ o d, matGet out.1.dist_mat o d = matGet out.1.dist_mat d o := by
  induction jobs generalizing k s out with
  | nil =>
    have h2 := Except.ok.inj h
    subst h2
    exact hs
  | cons j rest ih =>
    obtain ⟨s', slept, sf, tr, hstep, hloop, rfl⟩ := sched_loop_cons_ok h
    obtain ⟨n1, v, hq, hmat, _, _, _⟩ := sched_step_ok_inv hstep
    dsimp only
    refine ih hloop ?_
    intro o d
    rw [hmat, matGet_matPut2, matGet_matPut2]
    by_cases hc : (o = j.2.1 ∧ d = j.2.2) ∨ (o = j.2.2 ∧ d = j.2.1)
    · rw [if_pos hc, if_pos (by tauto)]
    · rw [if_neg hc, if_neg (by tauto), hs]

/-- The trace of a successful run lists exactly the job list, in order,
and records as each iteration's time the reading captured at its start. -/
theorem sched_loop_trace {book : AddrBook} {oracle : String → String → V}
    {tl : ℕ → ℚ} {jobs : List Job} {k : ℕ} {s : SchedState V}
    {out : SchedState V × List (Event V)}
    (h : sched_loop book oracle tl jobs k s = Except.ok out) :
    out.2.map Event.job = jobs ∧
      out.2.map Event.t = (List.range jobs.length).map (fun i => tl (k + i)) := by
  induction jobs generalizing k s out with
  | nil =>
    have h2 := Except.ok.inj h
    subst h2
    simp
  | cons j rest ih =>
    obtain ⟨s', slept, sf, tr, hstep, hloop, rfl⟩ := sched_loop_cons_ok h
    obtain ⟨hjobs, hts⟩ := ih hloop
    dsimp only at hjobs hts ⊢
    constructor
    · rw [List.map_cons, hjobs]
    · rw [List.map_cons, hts, List.length_cons, List.range_succ_eq_map]
      simp only [List.map_cons, List.map_map, Nat.add_zero]
      congr 1
      refine List.map_congr_left (fun i _ => ?_)
      have hk : k + 1 + i = k + Nat.succ i := by omega
      simp only [Function.comp]
      rw [hk]

/-- Inversion of a successful `get_dist_mat` run into its loop run. -/
theorem get_dist_mat_ok_inv {book : AddrBook} {oracle : String → String → V}
    {job_list : List Job} {tl : ℕ → ℚ} {mat : Dict ℕ (Dict ℕ V)}
    (h : get_dist_mat book oracle job_list tl = Except.ok mat) :
    ∃ sf tr, sched_loop book oracle tl job_list 0 (initState V) = Except.ok (sf, tr) ∧
      mat = sf.dist_mat := by
  unfold get_dist_mat at h
  cases hrun : sched_loop book oracle tl job_list 0 (initState V) with
  | error e => rw [hrun] at h; exact absurd h (by simp)
  | ok p =>
    obtain ⟨sf, tr⟩ := p
    rw [hrun] at h
    exact ⟨sf, tr, rfl, (Except.ok.inj h).symm⟩

/-- `mapM` over a dictionary lookup succeeds and yields the defaulted
lookups when every key is present. -/
theorem mapM_dget_names (nm : Dict ℕ String) (l : List ℕ)
    (h : ∀ a ∈ l, (dget? a nm).isSome) :
    l.mapM (fun i => dget? i nm) = some (l.map (fun i => (dget? i nm).getD "")) := by
  induction l with
  | nil => rfl
  | cons a l ih =>
    rw [List.mapM_cons]
    obtain ⟨x, hx⟩ := Option.isSome_iff_exists.mp (h a (List.mem_cons_self a l))
    rw [hx, ih (fun b hb => h b (List.mem_cons_of_mem a hb))]
    simp [hx]

/-! ## Claim theorems: job generator -/

/-- **C1.** For every Address Book (with globally unique address ids, the
book invariant), `create_jobs` emits exactly `Σ C(|group|, 2)` jobs; every
job has `ori_id ≠ des_id` with both ids in that job's group; and no two
jobs share an unordered id pair (no duplicate, no reversed duplicate). -/
theorem create_jobs_correct (book : AddrBook) (h : (allIds book).Nodup) :
    (create_jobs book).length =
        (book.map (fun ga => Nat.choose (dkeys ga.2).length 2)).sum ∧
      (∀ j ∈ create_jobs book, j.2.1 ≠ j.2.2 ∧
        ∃ ga ∈ book, j.1 = ga.1 ∧ j.2.1 ∈ dkeys ga.2 ∧ j.2.2 ∈ dkeys ga.2) ∧
      ((create_jobs book).map jobPair).Nodup := by
  unfold allIds at h
  obtain ⟨hall, hpair⟩ := List.nodup_flatten.mp h
  refine ⟨create_jobs_length book, ?_, ?_⟩
  · intro j hj
    obtain ⟨ga, hga, p, hp, rfl⟩ := mem_create_jobs.mp hj
    have hnd : (dkeys ga.2).Nodup := hall _ (List.mem_map_of_mem _ hga)
    exact ⟨combos2_ne hnd hp, ga, hga, rfl, (mem_combos2 hp).1, (mem_combos2 hp).2⟩
  · unfold create_jobs
    rw [List.map_flatten]
    rw [List.nodup_flatten]
    constructor
    · intro l hl
      rw [List.map_map, List.mem_map] at hl
      obtain ⟨ga, hga, rfl⟩ := hl
      have hnd : (dkeys ga.2).Nodup := hall _ (List.mem_map_of_mem _ hga)
      have hcomp :
          (List.map jobPair ∘ fun ga : ℕ × Dict ℕ String =>
              (combos2 (dkeys ga.2)).map (fun p => ((ga.1, p.1, p.2) : Job))) ga =
            (combos2 (dkeys ga.2)).map (fun p => Sym2.mk p) := by
        simp only [Function.comp, List.map_map]
        refine List.map_congr_left (fun p _ => ?_)
        cases p
        rfl
      rw [hcomp]
      exact combos2_sym2_nodup hnd
    · rw [List.map_map, List.pairwise_map]
      rw [List.pairwise_map] at hpair
      exact hpair.imp (fun hd => disjoint_jobPair hd)

/-- **C1 witness.** The hypotheses and the conclusion of
`create_jobs_correct` evaluated on the Scenario A book. -/
theorem create_jobs_correct_witness :
    (allIds bookABC).Nodup ∧
      ((create_jobs bookABC).length =
          (bookABC.map (fun ga => Nat.choose (dkeys ga.2).length 2)).sum ∧
        (∀ j ∈ create_jobs bookABC, j.2.1 ≠ j.2.2 ∧
          ∃ ga ∈ bookABC, j.1 = ga.1 ∧ j.2.1 ∈ dkeys ga.2 ∧ j.2.2 ∈ dkeys ga.2) ∧
        ((create_jobs bookABC).map jobPair).Nodup) :=
  ⟨by decide, create_jobs_correct bookABC (by decide)⟩

/-- **C9.** On the Scenario A book (group 1, ids 0 < 1 < 2 named A, B, C),
`create_jobs` produces exactly `(1,0,1), (1,0,2), (1,1,2)`, in that
order. -/
theorem create_jobs_bookABC :
    create_jobs bookABC = [(1, 0, 1), (1, 0, 2), (1, 1, 2)] := rfl

/-! ## Claim theorems: scheduler -/

/-- **C2.** The Distance Matrix is symmetric: one recorded job keeps
`matGet` symmetric (so symmetry holds after each individual job); any
completed `get_dist_mat` run returns a symmetric matrix; and for every
processed job `(g, o, d)` of a completed run both `matrix[o][d]` and
`matrix[d][o]` exist and hold the same value. -/
theorem dist_mat_symmetric (book : AddrBook) (oracle : String → String → V) :
    (∀ (j : Job) (s s' : SchedState V) (t : ℚ) (slept : Option ℚ),
      (∀ o d, matGet s.dist_mat o d = matGet s.dist_mat d o) →
      sched_step book oracle j s t = Except.ok (s', slept) →
      ∀ o d, matGet s'.dist_mat o d = matGet s'.dist_mat d o) ∧
    (∀ (job_list : List Job) (tl : ℕ → ℚ) (mat : Dict ℕ (Dict ℕ V)),
      get_dist_mat book oracle job_list tl = Except.ok mat →
      ∀ o d, matGet mat o d = matGet mat d o) ∧
    (∀ (job_list : List Job) (tl : ℕ → ℚ) (mat : Dict ℕ (Dict ℕ V)),
      get_dist_mat book oracle job_list tl = Except.ok mat →
      ∀ j ∈ job_list,
        (matGet mat j.2.1 j.2.2).isSome ∧ (matGet mat j.2.2 j.2.1).isSome ∧
          matGet mat j.2.1 j.2.2 = matGet mat j.2.2 j.2.1) := by
  refine ⟨?_, ?_, ?_⟩
  · intro j s s' t slept hs h
    obtain ⟨n1, v, hq, hmat, _, _, _⟩ := sched_step_ok_inv h
    intro o d
    rw [hmat, matGet_matPut2, matGet_matPut2]
    by_cases hc : (o = j.2.1 ∧ d = j.2.2) ∨ (o = j.2.2 ∧ d = j.2.1)
    · rw [if_pos hc, if_pos (by tauto)]
    · rw [if_neg hc, if_neg (by tauto), hs]
  · intro job_list tl mat h
    obtain ⟨sf, tr, hrun, rfl⟩ := get_dist_mat_ok_inv h
    exact sched_loop_symm hrun (fun o d => rfl)
  · intro job_list tl mat h j hj
    obtain ⟨sf, tr, hrun, rfl⟩ := get_dist_mat_ok_inv h
    have hsym := sched_loop_symm hrun (fun o d => rfl)
    refine ⟨?_, ?_, hsym j.2.1 j.2.2⟩
    · exact (sched_loop_matGet_isSome hrun j.2.1 j.2.2).mpr
        (Or.inr ⟨j, hj, Or.inl ⟨rfl, rfl⟩⟩)
    · exact (sched_loop_matGet_isSome hrun j.2.2 j.2.1).mpr
        (Or.inr ⟨j, hj, Or.inr ⟨rfl, rfl⟩⟩)

/-- **C2 witness.** The symmetry theorem applied to a concrete completed
run over the Scenario A book with a constant oracle: the returned matrix
is symmetric, and the cells of every processed job are present in both
orientations with equal values. -/
theorem dist_mat_symmetric_witness :
    get_dist_mat bookABC (fun _ _ => (7 : ℕ)) (create_jobs bookABC) slowTl =
        Except.ok [(0, [(1, 7), (2, 7)]), (1, [(0, 7), (2, 7)]), (2, [(0, 7), (1, 7)])] ∧
      (∀ o d,
        matGet [(0, [(1, 7), (2, 7)]), (1, [(0, 7), (2, 7)]), (2, [(0, 7), (1, 7)])] o d =
          matGet [(0, [(1, 7), (2, 7)]), (1, [(0, 7), (2, 7)]), (2, [(0, 7), (1, 7)])] d o) ∧
      ∀ j ∈ create_jobs bookABC,
        (matGet [(0, [(1, 7), (2, 7)]), (1, [(0, 7), (2, 7)]),
            (2, [(0, 7), (1, 7)])] j.2.1 j.2.2).isSome ∧
          (matGet [(0, [(1, 7), (2, 7)]), (1, [(0, 7), (2, 7)]),
            (2, [(0, 7), (1, 7)])] j.2.2 j.2.1).isSome ∧
          matGet [(0, [(1, 7), (2, 7)]), (1, [(0, 7), (2, 7)]),
              (2, [(0, 7), (1, 7)])] j.2.1 j.2.2 =
            matGet [(0, [(1, 7), (2, 7)]), (1, [(0, 7), (2, 7)]),
              (2, [(0, 7), (1, 7)])] j.2.2 j.2.1 :=
  ⟨rfl,
    (dist_mat_symmetric bookABC (fun _ _ => (7 : ℕ))).2.1 (create_jobs bookABC) slowTl
      [(0, [(1, 7), (2, 7)]), (1, [(0, 7), (2, 7)]), (2, [(0, 7), (1, 7)])] rfl,
    (dist_mat_symmetric bookABC (fun _ _ => (7 : ℕ))).2.2 (create_jobs bookABC) slowTl
      [(0, [(1, 7), (2, 7)]), (1, [(0, 7), (2, 7)]), (2, [(0, 7), (1, 7)])] rfl⟩

/-- **C3.** (latent defect in the code) Whenever the in-window counter has
reached `max_jobs_day` and the elapsed time since the window reference
timestamp is below the day length, the branch does not perform a
well-defined bounded wait: it evaluates the undefined name `wait_time`
and raises `NameError`, instead of sleeping and re-evaluating the same
job. -/
theorem window_wait_raises (book : AddrBook) (oracle : String → String → V)
    (j : Job) (s : SchedState V) (t : ℚ)
    (h1 : max_jobs_day ≤ s.num_jobs_day) (h2 : t - s.last_time < dayLength) :
    sched_step book oracle j s t = Except.error PyErr.nameError := by
  unfold sched_step
  rw [if_pos h1, if_pos h2]

/-- **C3 witness.** The quota-wait `NameError` at a concrete state: the
counter at 2500 with the window only 1 second old. -/
theorem window_wait_raises_witness :
    max_jobs_day ≤ (⟨Dict.empty, 0, 2500⟩ : SchedState ℕ).num_jobs_day ∧
      (1 : ℚ) - (⟨Dict.empty, 0, 2500⟩ : SchedState ℕ).last_time < dayLength ∧
      sched_step bookABC (fun _ _ => (7 : ℕ)) (1, 0, 1) ⟨Dict.empty, 0, 2500⟩ 1 =
        Except.error PyErr.nameError :=
  ⟨by decide, by norm_num [dayLength],
    window_wait_raises bookABC (fun _ _ => (7 : ℕ)) (1, 0, 1) ⟨Dict.empty, 0, 2500⟩ 1
      (by decide) (by norm_num [dayLength])⟩

/-- **C4 counterexample.** The pacing branch does not sleep for the
*remaining* interval: with `last_time = 0` and `t = 1/1000` the remaining
interval is `1/1000`, yet the code sleeps the full `time_jobs = 2/1000`. -/
theorem pacing_sleep_cex :
    sched_step bookABC (fun _ _ => (7 : ℕ)) (1, 0, 1) ⟨Dict.empty, 0, 0⟩ (1 / 1000) =
        Except.ok (⟨matPut2 Dict.empty 0 1 7, 1 / 1000, 0 + 1⟩, some time_jobs) ∧
      time_jobs ≠ time_jobs - ((1 / 1000 : ℚ) - 0) := by
  constructor
  · unfold sched_step
    dsimp only
    rw [if_neg (by decide : ¬ max_jobs_day ≤ 0)]
    dsimp only
    rw [show query_dist bookABC (fun _ _ => (7 : ℕ)) 1 0 1 = some 7 from rfl]
    rw [if_pos (show (1 / 1000 : ℚ) - 0 < time_jobs by rw [time_jobs]; norm_num)]
  · rw [time_jobs]
    norm_num

/-- **C4 (amended).** On an iteration where the elapsed time since the
last dispatch is below `time_jobs` (and the day quota is not exhausted),
the scheduler sleeps exactly once, for the full `time_jobs` interval
rather than the remaining one, and then proceeds to dispatch regardless
of the elapsed time. -/
theorem pacing_sleep_full (book : AddrBook) (oracle : String → String → V)
    (j : Job) (s : SchedState V) (t : ℚ) (v : V)
    (h1 : s.num_jobs_day < max_jobs_day)
    (h2 : t - s.last_time < time_jobs)
    (hq : query_dist book oracle j.1 j.2.1 j.2.2 = some v) :
    sched_step book oracle j s t =
      Except.ok (⟨matPut2 s.dist_mat j.2.1 j.2.2 v, t, s.num_jobs_day + 1⟩,
        some time_jobs) := by
  unfold sched_step
  rw [if_neg (Nat.not_le.mpr h1)]
  dsimp only
  rw [hq, if_pos h2]

/-- **C4 witness.** The amended pacing behaviour at a concrete state:
elapsed time `1/1000 < time_jobs`, a single sleep of `time_jobs`, then a
dispatch. -/
theorem pacing_sleep_full_witness :
    (⟨Dict.empty, 0, 0⟩ : SchedState ℕ).num_jobs_day < max_jobs_day ∧
      (1 / 1000 : ℚ) - (⟨Dict.empty, 0, 0⟩ : SchedState ℕ).last_time < time_jobs ∧
      query_dist bookABC (fun _ _ => (7 : ℕ)) 1 0 1 = some 7 ∧
      sched_step bookABC (fun _ _ => (7 : ℕ)) (1, 0, 1) ⟨Dict.empty, 0, 0⟩ (1 / 1000) =
        Except.ok (⟨matPut2 Dict.empty 0 1 7, 1 / 1000, 0 + 1⟩, some time_jobs) :=
  ⟨by decide, by rw [time_jobs]; norm_num, rfl,
    pacing_sleep_full bookABC (fun _ _ => (7 : ℕ)) (1, 0, 1) ⟨Dict.empty, 0, 0⟩ (1 / 1000) 7
      (by decide) (by rw [time_jobs]; norm_num) rfl⟩

/-- **C5.** When the in-window counter has reached `max_jobs_day` but the
day has rolled over (elapsed `≥ dayLength`), the scheduler resets the
counter to zero, moves the window reference to `t - 0.002`, and — the
`0.002` epsilon being exactly `time_jobs` with a strict `<` pacing test —
dispatches the current job immediately with no sleep (`slept = none`,
counter ends at `0 + 1`). -/
theorem window_rollover (book : AddrBook) (oracle : String → String → V)
    (j : Job) (s : SchedState V) (t : ℚ) (v : V)
    (h1 : max_jobs_day ≤ s.num_jobs_day)
    (h2 : dayLength ≤ t - s.last_time)
    (hq : query_dist book oracle j.1 j.2.1 j.2.2 = some v) :
    sched_step book oracle j s t =
      Except.ok (⟨matPut2 s.dist_mat j.2.1 j.2.2 v, t, 0 + 1⟩, none) := by
  unfold sched_step
  rw [if_pos h1, if_neg (not_lt.mpr h2)]
  dsimp only
  rw [hq]
  have hp : ¬ t - (t - 2 / 1000) < time_jobs := by
    have he : t - (t - 2 / 1000) = 2 / 1000 := by ring
    rw [he, time_jobs]
    exact lt_irrefl _
  rw [if_neg hp]

/-- **C5 witness.** The rollover at a concrete state: counter 2500, window
a full day old, next job dispatched with no sleep. -/
theorem window_rollover_witness :
    max_jobs_day ≤ (⟨Dict.empty, 0, 2500⟩ : SchedState ℕ).num_jobs_day ∧
      dayLength ≤ (90000 : ℚ) - (⟨Dict.empty, 0, 2500⟩ : SchedState ℕ).last_time ∧
      query_dist bookABC (fun _ _ => (7 : ℕ)) 1 0 1 = some 7 ∧
      sched_step bookABC (fun _ _ => (7 : ℕ)) (1, 0, 1) ⟨Dict.empty, 0, 2500⟩ 90000 =
        Except.ok (⟨matPut2 Dict.empty 0 1 7, 90000, 0 + 1⟩, none) :=
  ⟨by decide, by norm_num [dayLength], rfl,
    window_rollover bookABC (fun _ _ => (7 : ℕ)) (1, 0, 1) ⟨Dict.empty, 0, 2500⟩ 90000 7
      (by decide) (by norm_num [dayLength]) rfl⟩

/-- **C6.** Bookkeeping and dispatch order: after every successful
dispatch the last-dispatch timestamp equals the `time()` reading captured
at the start of that iteration (before any sleeping or the oracle call);
outside the rollover branch the in-window counter is incremented by
exactly one; a successful run dispatches exactly the job list in order,
each iteration stamped with its start-of-iteration reading; and an
exhausted job list makes the loop return the accumulated state. -/
theorem bookkeeping_and_order (book : AddrBook) (oracle : String → String → V)
    (tl : ℕ → ℚ) :
    (∀ (j : Job) (s s' : SchedState V) (t : ℚ) (slept : Option ℚ),
      sched_step book oracle j s t = Except.ok (s', slept) → s'.last_time = t) ∧
    (∀ (j : Job) (s s' : SchedState V) (t : ℚ) (slept : Option ℚ),
      s.num_jobs_day < max_jobs_day →
      sched_step book oracle j s t = Except.ok (s', slept) →
      s'.num_jobs_day = s.num_jobs_day + 1) ∧
    (∀ (jobs : List Job) (k : ℕ) (s : SchedState V)
      (out : SchedState V × List (Event V)),
      sched_loop book oracle tl jobs k s = Except.ok out →
      out.2.map Event.job = jobs ∧
      out.2.map Event.t = (List.range jobs.length).map (fun i => tl (k + i))) ∧
    (∀ (k : ℕ) (s : SchedState V),
      sched_loop book oracle tl ([] : List Job) k s = Except.ok (s, [])) := by
  refine ⟨?_, ?_, ?_, fun k s => rfl⟩
  · intro j s s' t slept h
    obtain ⟨n1, v, hq, hmat, hlast, _, _⟩ := sched_step_ok_inv h
    exact hlast
  · intro j s s' t slept h1 h
    unfold sched_step at h
    rw [if_neg (Nat.not_le.mpr h1)] at h
    dsimp only at h
    cases hq : query_dist book oracle j.1 j.2.1 j.2.2 with
    | none => rw [hq] at h; exact absurd h (by simp)
    | some v =>
      rw [hq] at h
      have h3 := Except.ok.inj h
      rw [Prod.mk.injEq] at h3
      obtain ⟨h4, _⟩ := h3
      rw [← h4]
  · intro jobs k s out h
    exact sched_loop_trace h

/-- **C6 witness.** The bookkeeping conclusions evaluated on the first
iteration and on a full concrete run over the Scenario A book. -/
theorem bookkeeping_and_order_witness :
    ((⟨[(0, [(1, 7)]), (1, [(0, 7)])], 1000, 1⟩ : SchedState ℕ).last_time = 1000 ∧
      (⟨[(0, [(1, 7)]), (1, [(0, 7)])], 1000, 1⟩ : SchedState ℕ).num_jobs_day =
        (initState ℕ).num_jobs_day + 1) ∧
    ([(⟨slowTl 0, none, (1, 0, 1)⟩ : Event ℕ), ⟨slowTl 1, none, (1, 0, 2)⟩,
        ⟨slowTl 2, none, (1, 1, 2)⟩].map Event.job = create_jobs bookABC ∧
      [(⟨slowTl 0, none, (1, 0, 1)⟩ : Event ℕ), ⟨slowTl 1, none, (1, 0, 2)⟩,
        ⟨slowTl 2, none, (1, 1, 2)⟩].map Event.t =
        (List.range (create_jobs bookABC).length).map (fun i => slowTl (0 + i))) := by
  have hb := bookkeeping_and_order bookABC (fun _ _ => (7 : ℕ)) slowTl
  have hstep : sched_step bookABC (fun _ _ => (7 : ℕ)) (1, 0, 1) (initState ℕ) 1000 =
      Except.ok (⟨[(0, [(1, 7)]), (1, [(0, 7)])], 1000, 1⟩, none) := by
    unfold sched_step initState
    dsimp only
    rw [if_neg (by decide : ¬ max_jobs_day ≤ 0)]
    dsimp only
    rw [show query_dist bookABC (fun _ _ => (7 : ℕ)) 1 0 1 = some 7 from rfl]
    rw [if_neg (show ¬ ((1000 : ℚ) - 0 < time_jobs) by rw [time_jobs]; norm_num)]
    rfl
  have hs0 : sched_step bookABC (fun _ _ => (7 : ℕ)) (1, 0, 1) (initState ℕ) (slowTl 0) =
      Except.ok (⟨[(0, [(1, 7)]), (1, [(0, 7)])], slowTl 0, 1⟩, none) := by
    unfold sched_step initState
    dsimp only
    rw [if_neg (by decide : ¬ max_jobs_day ≤ 0)]
    dsimp only
    rw [show query_dist bookABC (fun _ _ => (7 : ℕ)) 1 0 1 = some 7 from rfl]
    rw [if_neg (show ¬ (slowTl 0 - 0 < time_jobs) by simp only [slowTl, time_jobs]; norm_num)]
    rfl
  have hs1 : sched_step bookABC (fun _ _ => (7 : ℕ)) (1, 0, 2)
      ⟨[(0, [(1, 7)]), (1, [(0, 7)])], slowTl 0, 1⟩ (slowTl 1) =
      Except.ok (⟨[(0, [(1, 7), (2, 7)]), (1, [(0, 7)]), (2, [(0, 7)])], slowTl 1, 2⟩,
        none) := by
    unfold sched_step
    dsimp only
    rw [if_neg (by decide : ¬ max_jobs_day ≤ 1)]
    dsimp only
    rw [show query_dist bookABC (fun _ _ => (7 : ℕ)) 1 0 2 = some 7 from rfl]
    rw [if_neg (show ¬ (slowTl 1 - slowTl 0 < time_jobs) by
      simp only [slowTl, time_jobs]; norm_num)]
    rfl
  have hs2 : sched_step bookABC (fun _ _ => (7 : ℕ)) (1, 1, 2)
      ⟨[(0, [(1, 7), (2, 7)]), (1, [(0, 7)]), (2, [(0, 7)])], slowTl 1, 2⟩ (slowTl 2) =
      Except.ok (⟨[(0, [(1, 7), (2, 7)]), (1, [(0, 7), (2, 7)]), (2, [(0, 7), (1, 7)])],
        slowTl 2, 3⟩, none) := by
    unfold sched_step
    dsimp only
    rw [if_neg (by decide : ¬ max_jobs_day ≤ 2)]
    dsimp only
    rw [show query_dist bookABC (fun _ _ => (7 : ℕ)) 1 1 2 = some 7 from rfl]
    rw [if_neg (show ¬ (slowTl 2 - slowTl 1 < time_jobs) by
      simp only [slowTl, time_jobs]; norm_num)]
    rfl
  have hrun : sched_loop bookABC (fun _ _ => (7 : ℕ)) slowTl (create_jobs bookABC) 0
      (initState ℕ) =
      Except.ok (⟨[(0, [(1, 7), (2, 7)]), (1, [(0, 7), (2, 7)]), (2, [(0, 7), (1, 7)])],
        slowTl 2, 3⟩,
        [⟨slowTl 0, none, (1, 0, 1)⟩, ⟨slowTl 1, none, (1, 0, 2)⟩,
          ⟨slowTl 2, none, (1, 1, 2)⟩]) := by
    rw [show create_jobs bookABC = [(1, 0, 1), (1, 0, 2), (1, 1, 2)] from rfl]
    exact sched_loop_cons_of hs0 (sched_loop_cons_of hs1
      (sched_loop_cons_of hs2 sched_loop_nil))
  refine ⟨⟨hb.1 (1, 0, 1) (initState ℕ) _ 1000 none hstep, ?_⟩, ?_⟩
  · exact hb.2.1 (1, 0, 1) (initState ℕ) _ 1000 none (by decide) hstep
  · exact hb.2.2.1 (create_jobs bookABC) 0 (initState ℕ) _ hrun

/-! ## Claim theorems: exporter -/

/-- **C7 counterexample.** The exporter does not write one row per address
id of the book: for a book whose single group holds one address, a
completed run produces an empty matrix and `export_result` writes only the
header row, with no row (and no column) for that address. -/
theorem export_rows_cex :
    create_jobs bookSolo = [] ∧
      get_dist_mat bookSolo (fun _ _ => (7 : ℕ)) (create_jobs bookSolo) slowTl =
        Except.ok [] ∧
      export_result bookSolo ([] : Dict ℕ (Dict ℕ ℕ)) = some [[Cell.str "sample"]] ∧
      ([[Cell.str "sample"]] : List (List (Cell ℕ))).length ≠ 1 + (allIds bookSolo).length :=
  ⟨rfl, rfl, rfl, by decide⟩

/-- **C7 (amended).** `export_result` writes a header of `sample` followed
by the names of the matrix's key ids in ascending id order, then one row
per matrix key id (same order) holding that id's name and one cell per
column key id: the recorded value when present, the sentinel `0`
otherwise — in particular on the diagonal and on cross-group pairs.  Ids
of the book that never entered the matrix (e.g. in singleton groups) get
neither a row nor a column. -/
theorem export_result_spec (book : AddrBook) (mat : Dict ℕ (Dict ℕ V))
    (hnm : ∀ o ∈ dkeys mat, (dget? o (addrName book)).isSome) :
    List.Sorted (· ≤ ·) (sortIds (dkeys mat)) ∧
      (sortIds (dkeys mat)).Perm (dkeys mat) ∧
      export_result book mat = some
        ((Cell.str "sample" ::
            (sortIds (dkeys mat)).map (fun i => Cell.str ((dget? i (addrName book)).getD ""))) ::
          (sortIds (dkeys mat)).map (fun o =>
            Cell.str ((dget? o (addrName book)).getD "") ::
              (sortIds (dkeys mat)).map (fun d =>
                match matGet mat o d with
                | some v => Cell.val v
                | none => Cell.zero))) := by
  refine ⟨List.sorted_insertionSort _ _, List.perm_insertionSort _ _, ?_⟩
  unfold export_result
  dsimp only
  rw [mapM_dget_names (addrName book) (sortIds (dkeys mat))
    (fun a ha => hnm a ((List.perm_insertionSort _ _).mem_iff.mp ha))]
  dsimp only
  rw [List.map_map]
  rfl

/-- **C7 witness.** The amended export contract evaluated on the Scenario
A book and the matrix of a completed constant-oracle run. -/
theorem export_result_spec_witness :
    (∀ o ∈ dkeys ([(0, [(1, 7), (2, 7)]), (1, [(0, 7), (2, 7)]),
        (2, [(0, 7), (1, 7)])] : Dict ℕ (Dict ℕ ℕ)),
      (dget? o (addrName bookABC)).isSome) ∧
      (List.Sorted (· ≤ ·) (sortIds (dkeys ([(0, [(1, 7), (2, 7)]), (1, [(0, 7), (2, 7)]),
          (2, [(0, 7), (1, 7)])] : Dict ℕ (Dict ℕ ℕ)))) ∧
        (sortIds (dkeys ([(0, [(1, 7), (2, 7)]), (1, [(0, 7), (2, 7)]),
            (2, [(0, 7), (1, 7)])] : Dict ℕ (Dict ℕ ℕ)))).Perm
          (dkeys ([(0, [(1, 7), (2, 7)]), (1, [(0, 7), (2, 7)]),
            (2, [(0, 7), (1, 7)])] : Dict ℕ (Dict ℕ ℕ))) ∧
        export_result bookABC ([(0, [(1, 7), (2, 7)]), (1, [(0, 7), (2, 7)]),
            (2, [(0, 7), (1, 7)])] : Dict ℕ (Dict ℕ ℕ)) = some
          ((Cell.str "sample" ::
              (sortIds (dkeys ([(0, [(1, 7), (2, 7)]), (1, [(0, 7), (2, 7)]),
                (2, [(0, 7), (1, 7)])] : Dict ℕ (Dict ℕ ℕ)))).map
                  (fun i => Cell.str ((dget? i (addrName bookABC)).getD ""))) ::
            (sortIds (dkeys ([(0, [(1, 7), (2, 7)]), (1, [(0, 7), (2, 7)]),
              (2, [(0, 7), (1, 7)])] : Dict ℕ (Dict ℕ ℕ)))).map (fun o =>
              Cell.str ((dget? o (addrName bookABC)).getD "") ::
                (sortIds (dkeys ([(0, [(1, 7), (2, 7)]), (1, [(0, 7), (2, 7)]),
                  (2, [(0, 7), (1, 7)])] : Dict ℕ (Dict ℕ ℕ)))).map (fun d =>
                  match matGet ([(0, [(1, 7), (2, 7)]), (1, [(0, 7), (2, 7)]),
                    (2, [(0, 7), (1, 7)])] : Dict ℕ (Dict ℕ ℕ)) o d with
                  | some v => Cell.val v
                  | none => Cell.zero)))) :=
  ⟨by decide, export_result_spec bookABC _ (by decide)⟩

/-- **C8.** With the oracle stubbed to the constant `v`, a completed run
over the generated job list fills, for every distinct same-group id pair
`(o, d)`, both `matGet mat o d` and `matGet mat d o` with `v`. -/
theorem const_oracle_fills (v : V) (book : AddrBook) (tl : ℕ → ℚ)
    (mat : Dict ℕ (Dict ℕ V))
    (hrun : get_dist_mat book (fun _ _ => v) (create_jobs book) tl = Except.ok mat) :
    ∀ ga ∈ book, ∀ o d, o ∈ dkeys ga.2 → d ∈ dkeys ga.2 → o ≠ d →
      matGet mat o d = some v ∧ matGet mat d o = some v := by
  obtain ⟨sf, tr, hloop, rfl⟩ := get_dist_mat_ok_inv hrun
  intro ga hga o d ho hd hne
  have hjob : ∃ j ∈ create_jobs book,
      (o = j.2.1 ∧ d = j.2.2) ∨ (o = j.2.2 ∧ d = j.2.1) := by
    rcases mem_combos2_of_mem ho hd hne with hp | hp
    · exact ⟨(ga.1, o, d), mem_create_jobs.mpr ⟨ga, hga, (o, d), hp, rfl⟩,
        Or.inl ⟨rfl, rfl⟩⟩
    · exact ⟨(ga.1, d, o), mem_create_jobs.mpr ⟨ga, hga, (d, o), hp, rfl⟩,
        Or.inr ⟨rfl, rfl⟩⟩
  have hval := sched_loop_const_val hloop
    (fun o d w hw => Option.noConfusion hw)
  have hsym := sched_loop_symm hloop (fun o d => rfl)
  have hsome : (matGet sf.dist_mat o d).isSome :=
    (sched_loop_matGet_isSome hloop o d).mpr (Or.inr hjob)
  obtain ⟨w, hw⟩ := Option.isSome_iff_exists.mp hsome
  have hwv : w = v := hval o d w hw
  subst hwv
  refine ⟨hw, ?_⟩
  rw [show matGet sf.dist_mat d o = matGet sf.dist_mat o d from hsym d o]
  exact hw

/-- **C8 witness.** A completed constant-oracle run over the Scenario A
book, with every same-group pair's two cells holding the constant. -/
theorem const_oracle_fills_witness :
    get_dist_mat bookABC (fun _ _ => (7 : ℕ)) (create_jobs bookABC) slowTl =
        Except.ok [(0, [(1, 7), (2, 7)]), (1, [(0, 7), (2, 7)]), (2, [(0, 7), (1, 7)])] ∧
      ∀ ga ∈ bookABC, ∀ o d, o ∈ dkeys ga.2 → d ∈ dkeys ga.2 → o ≠ d →
        matGet [(0, [(1, 7), (2, 7)]), (1, [(0, 7), (2, 7)]), (2, [(0, 7), (1, 7)])] o d =
            some 7 ∧
          matGet [(0, [(1, 7), (2, 7)]), (1, [(0, 7), (2, 7)]), (2, [(0, 7), (1, 7)])] d o =
            some 7 :=
  ⟨rfl, const_oracle_fills 7 bookABC slowTl _ rfl⟩

/-- **C10.** For a matrix returned by the scheduler over jobs whose origin
and destination ids differ: no row ever contains its own id as a column
(no diagonal entry); the outer keys are exactly the ids occurring in some
job; and every inner key pair corresponds to the unordered id pair of some
job. -/
theorem scheduler_matrix_keys (oracle : String → String → V) (book : AddrBook)
    (tl : ℕ → ℚ) (jobs : List Job) (mat : Dict ℕ (Dict ℕ V))
    (hjob : ∀ j ∈ jobs, j.2.1 ≠ j.2.2)
    (hrun : get_dist_mat book oracle jobs tl = Except.ok mat) :
    (∀ o ∈ dkeys mat, o ∉ innerKeys mat o) ∧
      (∀ o, o ∈ dkeys mat ↔ ∃ j ∈ jobs, o = j.2.1 ∨ o = j.2.2) ∧
      (∀ o d, d ∈ innerKeys mat o →
        ∃ j ∈ jobs, (o = j.2.1 ∧ d = j.2.2) ∨ (o = j.2.2 ∧ d = j.2.1)) := by
  obtain ⟨sf, tr, hloop, rfl⟩ := get_dist_mat_ok_inv hrun
  refine ⟨?_, ?_, ?_⟩
  · intro o ho hin
    rw [mem_innerKeys_iff] at hin
    rcases (sched_loop_matGet_isSome hloop o o).mp hin with hbad | ⟨j, hj, hc⟩
    · exact Bool.noConfusion hbad
    · rcases hc with ⟨h1, h2⟩ | ⟨h1, h2⟩
      · refine hjob j hj ?_
        rw [← h1, ← h2]
      · refine hjob j hj ?_
        rw [← h2, ← h1]
  · intro o
    have hk := sched_loop_mem_dkeys hloop o
    dsimp only at hk
    rw [hk]
    constructor
    · rintro (hbad | h)
      · exact absurd hbad (List.not_mem_nil o)
      · exact h
    · exact fun h => Or.inr h
  · intro o d hin
    rw [mem_innerKeys_iff] at hin
    rcases (sched_loop_matGet_isSome hloop o d).mp hin with hbad | hj
    · exact Bool.noConfusion hbad
    · exact hj

/-- **C10 witness.** The key discipline evaluated on a completed run over
the Scenario A book. -/
theorem scheduler_matrix_keys_witness :
    (∀ j ∈ create_jobs bookABC, j.2.1 ≠ j.2.2) ∧
      get_dist_mat bookABC (fun _ _ => (7 : ℕ)) (create_jobs bookABC) slowTl =
        Except.ok [(0, [(1, 7), (2, 7)]), (1, [(0, 7), (2, 7)]), (2, [(0, 7), (1, 7)])] ∧
      ((∀ o ∈ dkeys ([(0, [(1, 7), (2, 7)]), (1, [(0, 7), (2, 7)]),
          (2, [(0, 7), (1, 7)])] : Dict ℕ (Dict ℕ ℕ)),
        o ∉ innerKeys [(0, [(1, 7), (2, 7)]), (1, [(0, 7), (2, 7)]), (2, [(0, 7), (1, 7)])] o) ∧
        (∀ o, o ∈ dkeys ([(0, [(1, 7), (2, 7)]), (1, [(0, 7), (2, 7)]),
            (2, [(0, 7), (1, 7)])] : Dict ℕ (Dict ℕ ℕ)) ↔
          ∃ j ∈ create_jobs bookABC, o = j.2.1 ∨ o = j.2.2) ∧
        (∀ o d, d ∈ innerKeys [(0, [(1, 7), (2, 7)]), (1, [(0, 7), (2, 7)]),
            (2, [(0, 7), (1, 7)])] o →
          ∃ j ∈ create_jobs bookABC,
            (o = j.2.1 ∧ d = j.2.2) ∨ (o = j.2.2 ∧ d = j.2.1))) :=
  ⟨by decide, rfl,
    scheduler_matrix_keys (fun _ _ => (7 : ℕ)) bookABC slowTl (create_jobs bookABC) _
      (by decide) rfl⟩

end DistMat
